import Mathlib

/-!
# Verification of the IHC attribution pipeline core

Shallow embedding of `src/attribution_processing.py` (and the relevant
control flow of `src/pipeline_runner.py`).  Python dictionaries are
modelled as association lists that preserve insertion order (as Python
3.7+ dicts do); `float` arithmetic is modelled as exact arithmetic over
`ℚ` (decimal literals such as `1.2` are written as the rationals
`6/5`); `datetime` values are modelled as natural numbers, which is
faithful because the code only compares timestamps and the
`strftime`/`strptime` round-trip through the fixed format
`%Y-%m-%d %H:%M:%S` is order-preserving.
-/

/-- Association-list lookup, modelling `d[k]` / `k in d` for a Python
dict whose keys are strings. -/
def alGet {α : Type} : List (String × α) → String → Option α
  | [], _ => none
  | (k, v) :: rest, key => if k = key then some v else alGet rest key

/-- Association-list update, modelling `d[k] = v`: an existing key keeps
its position and gets the new value; a missing key is appended at the
end (Python dict insertion order). -/
def dictInsert {α : Type} : List (String × α) → String → α → List (String × α)
  | [], key, v => [(key, v)]
  | (k, w) :: rest, key, v =>
    if k = key then (key, v) :: rest else (k, w) :: dictInsert rest key v

/-- Modelling `d.setdefault(k, []).append(v)`, i.e. the grouping idiom
`if k not in d: d[k] = []` followed by `d[k].append(v)`. -/
def dictPush {α : Type} : List (String × List α) → String → α → List (String × List α)
  | [], key, v => [(key, [v])]
  | (k, l) :: rest, key, v =>
    if k = key then (k, l ++ [v]) :: rest else (k, l) :: dictPush rest key v

/-- A session as it appears inside a journey payload
(`build_customer_journeys`, lines 38-45). -/
structure Session where
  session_id : String
  timestamp : Nat
  channel : String
  holder_engagement : Bool
  closer_engagement : Bool
  impression_interaction : Bool
  cost : ℚ
  deriving DecidableEq

/-- A conversion as it appears inside a journey payload
(`build_customer_journeys`, lines 52-55). -/
structure Conversion where
  conv_id : String
  timestamp : Nat
  revenue : ℚ
  deriving DecidableEq

/-- One user's entry in the journey payload. -/
structure UserData where
  sessions : List Session
  conversions : List Conversion
  deriving DecidableEq

/-- The `{'users': {...}}` journey payload. -/
structure JourneyPayload where
  users : List (String × UserData)
  deriving DecidableEq

/-- The nested attribution table `conv_id -> session_id -> weight`. -/
abbrev SessionWeights := List (String × ℚ)

abbrev AttribTable := List (String × SessionWeights)

/-- Does `needle` match at the head of `hay`?  (Character-list version
of Python's `str.startswith`.) -/
def leadMatch : List Char → List Char → Bool
  | [], _ => true
  | _ :: _, [] => false
  | a :: as, b :: bs => a = b && leadMatch as bs

/-- Python's substring containment `needle in hay`, on character lists. -/
def containsSub : List Char → List Char → Bool
  | [], needle => leadMatch needle []
  | a :: rest, needle => leadMatch needle (a :: rest) || containsSub rest needle

/-- `needle in hay` for strings. -/
def strContains (hay needle : String) : Bool :=
  containsSub hay.toList needle.toList

/-- Channel weight of `call_ihc_api_test` (lines 117-125): first-match
substring test in the order Email (1.2), Social (1.1), Search (1.3),
Direct (0.8), default 1.0. -/
def channelWeight (channel : String) : ℚ :=
  if strContains channel "Email" then 6/5
  else if strContains channel "Social" then 11/10
  else if strContains channel "Search" then 13/10
  else if strContains channel "Direct" then 4/5
  else 1

/-- Engagement weight of `call_ihc_api_test` (lines 127-131):
1.0, plus 0.5 for holder engagement, plus 0.7 for closer engagement. -/
def engagementWeight (s : Session) : ℚ :=
  1 + (if s.holder_engagement then 1/2 else 0)
    + (if s.closer_engagement then 7/10 else 0)

/-- The raw weight assigned to the eligible session at 0-based index `i`
out of `n` eligible sessions (line 133):
`recency * channel * engagement` with recency `(i+1)/n`. -/
def rawWeight (n i : Nat) (s : Session) : ℚ :=
  (((i : ℚ) + 1) / (n : ℚ)) * channelWeight s.channel * engagementWeight s

/-- The temporal eligibility filter of `call_ihc_api_test`
(lines 102-106): sessions strictly before the conversion. -/
def eligibleSessions (sessions : List Session) (conv : Conversion) : List Session :=
  sessions.filter (fun s => s.timestamp < conv.timestamp)

/-- Lines 99-100: `if conv_id not in attribution_results:
attribution_results[conv_id] = {}`. -/
def initKey (acc : AttribTable) (cid : String) : AttribTable :=
  if (alGet acc cid).isNone then acc ++ [(cid, [])] else acc

/-- Lines 113-134: insert the raw weight of every eligible session into
the conversion's weight dict, in enumeration order. -/
def assignRaw (inner : SessionWeights) (elig : List Session) : SessionWeights :=
  elig.enum.foldl
    (fun inn p => dictInsert inn p.2.session_id (rawWeight elig.length p.1 p.2)) inner

/-- The normalization divisor of line 137: the sum of the weights
currently stored for the conversion. -/
def innerTotal (inner : SessionWeights) : ℚ :=
  (inner.map Prod.snd).sum

/-- Lines 136-139: divide every stored weight by their sum. -/
def normalizeWeights (inner : SessionWeights) : SessionWeights :=
  inner.map (fun p => (p.1, p.2 / innerTotal inner))

/-- Lines 95-139: the per-conversion body of `call_ihc_api_test`.  The
key for `conv_id` is created first (lines 99-100, even when no session
is eligible), then the conversion is skipped if no session is eligible
(lines 108-109), otherwise raw weights are stored and normalized. -/
def processConversion (acc : AttribTable) (sessions : List Session)
    (conv : Conversion) : AttribTable :=
  if (eligibleSessions sessions conv).isEmpty then initKey acc conv.conv_id
  else
    dictInsert (initKey acc conv.conv_id) conv.conv_id
      (normalizeWeights
        (assignRaw ((alGet (initKey acc conv.conv_id) conv.conv_id).getD [])
          (eligibleSessions sessions conv)))

/-- `call_ihc_api_test` (lines 76-142): the deterministic heuristic
scorer. -/
def call_ihc_api_test (payload : JourneyPayload) : AttribTable :=
  payload.users.foldl
    (fun acc u =>
      if u.2.sessions.isEmpty || u.2.conversions.isEmpty then acc
      else u.2.conversions.foldl
        (fun a conv => processConversion a u.2.sessions conv) acc)
    []

/-- The table invariant maintained by the heuristic engine: every
per-conversion weight map holds only positive weights, and sums to 1
when non-empty. -/
def innerOK (inner : SessionWeights) : Prop :=
  (∀ p ∈ inner, 0 < p.2) ∧ (inner ≠ [] → innerTotal inner = 1)

def tableOK (t : AttribTable) : Prop := ∀ q ∈ t, innerOK q.2

/- Concrete data used to instantiate the hypothesis-bearing theorems. -/

def sWit : Session := ⟨"s1", 1, "Other", false, false, false, 0⟩

def cWit : Conversion := ⟨"c1", 2, 5⟩

def payloadWit : JourneyPayload := ⟨[("u1", ⟨[sWit], [cWit]⟩)]⟩

/-- A session strictly after its user's only conversion: the conversion
has zero eligible sessions. -/
def sLate : Session := ⟨"s9", 5, "Other", false, false, false, 0⟩

def cEarly : Conversion := ⟨"c9", 3, 1⟩

def payloadNoElig : JourneyPayload := ⟨[("u9", ⟨[sLate], [cEarly]⟩)]⟩

def sWitA : Session := ⟨"a1", 1, "Email", false, false, false, 0⟩

def sWitB : Session := ⟨"b2", 2, "Direct", true, false, false, 0⟩

/-- The wire-shape record built by `call_ihc_api_batched`
(lines 172-180) for one (conversion, eligible session) pair. -/
structure FlatRecord where
  conversion_id : String
  session_id : String
  timestamp : Nat
  channel_label : String
  holder_engagement : Nat
  closer_engagement : Nat
  conversion : Nat
  impression_interaction : Nat
  deriving DecidableEq

def sessionRecord (conv : Conversion) (s : Session) : FlatRecord :=
  ⟨conv.conv_id, s.session_id, s.timestamp, s.channel,
    if s.holder_engagement then 1 else 0,
    if s.closer_engagement then 1 else 0, 0,
    if s.impression_interaction then 1 else 0⟩

/-- The synthetic conversion pseudo-session (lines 184-192). -/
def convRecord (conv : Conversion) : FlatRecord :=
  ⟨conv.conv_id, "conversion_" ++ conv.conv_id, conv.timestamp,
    "Conversion", 0, 0, 1, 0⟩

/-- Lines 168-193: the flattened records produced for one conversion:
one record per strictly-earlier session, then the conversion
pseudo-session. -/
def flatForConv (sessions : List Session) (conv : Conversion) : List FlatRecord :=
  ((sessions.filter (fun s => s.timestamp < conv.timestamp)).map (sessionRecord conv))
    ++ [convRecord conv]

/-- Lines 156-193: the flattening pass of `call_ihc_api_batched`. -/
def flattenPayload (payload : JourneyPayload) : List FlatRecord :=
  payload.users.flatMap (fun u =>
    if u.2.sessions.isEmpty || u.2.conversions.isEmpty then []
    else u.2.conversions.flatMap (fun conv => flatForConv u.2.sessions conv))

/-- A row of the sessions dataframe handed to `build_customer_journeys`
(the columns produced by `get_sessions_data`); a NaN cost is modelled
by the `cost_is_na` flag. -/
structure SessionRow where
  session_id : String
  user_id : String
  timestamp : Nat
  channel_name : String
  holder_engagement : Bool
  closer_engagement : Bool
  impression_interaction : Bool
  cost_is_na : Bool
  cost : ℚ
  deriving DecidableEq

/-- A row of the conversions dataframe (`get_conversions_data`). -/
structure ConvRow where
  conv_id : String
  user_id : String
  timestamp : Nat
  revenue : ℚ
  deriving DecidableEq

/-- Lines 38-45: the session dict built from one dataframe row
(`float(cost)`, with NaN replaced by 0.0). -/
def toSession (r : SessionRow) : Session :=
  ⟨r.session_id, r.timestamp, r.channel_name, r.holder_engagement,
    r.closer_engagement, r.impression_interaction,
    if r.cost_is_na then 0 else r.cost⟩

/-- Lines 52-55: the conversion dict built from one dataframe row. -/
def toConv (r : ConvRow) : Conversion := ⟨r.conv_id, r.timestamp, r.revenue⟩

/-- Line 30: the user's session rows. -/
def userSessionRows (sessions : List SessionRow) (uid : String) : List SessionRow :=
  sessions.filter (fun r => r.user_id = uid)

/-- Line 31: the user's conversion rows. -/
def userConvRows (convRows : List ConvRow) (uid : String) : List ConvRow :=
  convRows.filter (fun r => r.user_id = uid)

/-- Lines 48-56: a conversion row is retained iff the user has at least
one session row strictly before it. -/
def retainedConvs (sessions : List SessionRow) (convRows : List ConvRow)
    (uid : String) : List Conversion :=
  ((userConvRows convRows uid).filter
    (fun c => !((userSessionRows sessions uid).filter
        (fun s => s.timestamp < c.timestamp)).isEmpty)).map toConv

/-- Lines 29-61: the body of the per-user loop of
`build_customer_journeys`: skip the user if it has no session or no
conversion rows (line 33) or if, after filtering, the session list or
the retained-conversion list is empty (line 58). -/
def userJourney (sessions : List SessionRow) (convRows : List ConvRow)
    (uid : String) : Option (String × UserData) :=
  if (userSessionRows sessions uid).isEmpty
      || (userConvRows convRows uid).isEmpty then none
  else if ((userSessionRows sessions uid).map toSession).isEmpty
      || (retainedConvs sessions convRows uid).isEmpty then none
  else some (uid, ⟨(userSessionRows sessions uid).map toSession,
    retainedConvs sessions convRows uid⟩)

/-- Lines 24-61 (`build_customer_journeys`): users in the intersection
of the two inputs, each mapped through the per-user loop body.  Python
iterates over an unordered set; the model fixes first-appearance order
in the sessions input (every claim about this function is
order-insensitive). -/
def build_customer_journeys (sessions : List SessionRow)
    (convRows : List ConvRow) : List (String × UserData) :=
  (((sessions.map SessionRow.user_id).dedup).filter
      (fun uid => (convRows.map ConvRow.user_id).contains uid)).filterMap
    (userJourney sessions convRows)

def srWit : SessionRow := ⟨"s1", "u1", 1, "Other", false, false, false, false, 0⟩

def crWit : ConvRow := ⟨"c1", "u1", 2, 5⟩

/-- One session entry of a batch response (`{'session_id': ..,
'ihc': ..}`); an empty `session_id` models a falsy/missing value
(line 279 uses `.get`, line 282 tests truthiness). -/
structure SessionResult where
  session_id : String
  ihc : ℚ
  deriving DecidableEq

/-- One conversion entry of a batch response; an empty `conversion_id`
models a falsy/missing value (lines 270-272). -/
structure ConvResult where
  conversion_id : String
  sessions : List SessionResult
  deriving DecidableEq

/-- The JSON body of a batch response: a present `statusCode` different
from 200 signals an application-level error (line 258;
`partialFailureErrors` only adds logging and is not modelled), `value`
carries the per-conversion results (line 265). -/
structure ApiBody where
  statusCode : Option Nat
  value : Option (List ConvResult)
  deriving DecidableEq

/-- The transport-level outcome of one `requests.post` (lines
249-253): either the request raises a `RequestException`
(connection error / timeout), or an HTTP response with a status code
and a JSON body comes back. -/
inductive HttpOutcome where
  | exn : HttpOutcome
  | resp : Nat → ApiBody → HttpOutcome
  deriving DecidableEq

/-- Line 282: `session_id.startswith('conversion_')`. -/
def isConversionPseudo (sid : String) : Bool :=
  leadMatch "conversion_".toList sid.toList

/-- Lines 269-283: merge one conversion entry of a successful response
into the combined results, skipping falsy conversion ids, falsy
session ids and conversion pseudo-sessions. -/
def mergeConv (acc : AttribTable) (cd : ConvResult) : AttribTable :=
  if cd.conversion_id = "" then acc
  else
    cd.sessions.foldl
      (fun a sd =>
        if sd.session_id ≠ "" ∧ isConversionPseudo sd.session_id = false then
          dictInsert a cd.conversion_id
            (dictInsert ((alGet a cd.conversion_id).getD []) sd.session_id sd.ihc)
        else a)
      (initKey acc cd.conversion_id)

/-- Line 258: `'statusCode' in results and results['statusCode'] != 200`. -/
def appErrorB (b : ApiBody) : Bool :=
  match b.statusCode with
  | some sc => sc != 200
  | none => false

/-- Lines 256-286: handling of the body of a 2xx response: skip the
batch on an embedded non-200 `statusCode`, merge the entries of
`value` otherwise; a body without `value` only logs a warning. -/
def processBody (acc : AttribTable) (b : ApiBody) : AttribTable :=
  if appErrorB b then acc
  else
    match b.value with
    | some vals => vals.foldl mergeConv acc
    | none => acc

/-- Lines 244-293 (batch loop plus exception handling), abstracted
over the external service: `api i` is the outcome of the POST for the
i-th batch.  `raise_for_status` (line 255) raises `HTTPError` — a
`RequestException` — for a 4xx/5xx status, and the `except` block
(lines 288-293) logs and re-raises every `RequestException`, so both a
transport failure and a non-success HTTP status abort the loop.  The
second component records the batch indices whose POST was issued. -/
def runBatches (api : Nat → HttpOutcome) :
    AttribTable → List Nat → Except Unit AttribTable × List Nat
  | acc, [] => (Except.ok acc, [])
  | acc, i :: rest =>
    match api i with
    | HttpOutcome.exn => (Except.error (), [i])
    | HttpOutcome.resp status body =>
      if 400 ≤ status then (Except.error (), [i])
      else
        ((runBatches api (processBody acc body) rest).1,
          i :: (runBatches api (processBody acc body) rest).2)

/-- Lines 197-203: group the flattened records by conversion id,
in insertion order. -/
def journeysByConversion (flat : List FlatRecord) :
    List (String × List FlatRecord) :=
  flat.foldl (fun d j => dictPush d j.conversion_id j) []

/-- Line 205: the distinct conversion ids in encounter order. -/
def conversionIds (flat : List FlatRecord) : List String :=
  (journeysByConversion flat).map Prod.fst

/-- Line 226: the start offsets `range(0, total, batch_size)`. -/
def batchStarts (total k : Nat) : List Nat :=
  (List.range ((total + k - 1) / k)).map (fun j => j * k)

/-- Line 227: the conversion-id slices `ids[i:i+batch_size]`. -/
def chunks {α : Type} (k : Nat) (l : List α) : List (List α) :=
  (batchStarts l.length k).map (fun i => (l.drop i).take k)

/-- Lines 229-231: the records of one batch: the grouped records of
the batch's conversion ids, concatenated. -/
def batchJourneys (groups : List (String × List FlatRecord))
    (bids : List String) : List FlatRecord :=
  bids.flatMap (fun cid => (alGet groups cid).getD [])

/-- The number of loop iterations of lines 226-293. -/
def numBatches (payload : JourneyPayload) (k : Nat) : Nat :=
  (chunks k (conversionIds (flattenPayload payload))).length

/-- `call_ihc_api_batched` (lines 144-296) with the external service
abstracted: flatten, group, slice into batches of at most
`max_journeys` conversions, and run the batch loop starting from an
empty combined table. -/
def call_ihc_api_batched (payload : JourneyPayload) (api : Nat → HttpOutcome)
    (max_journeys : Nat) : Except Unit AttribTable :=
  (runBatches api [] (List.range (numBatches payload max_journeys))).1

/-- The batch indices whose POST is actually issued during
`call_ihc_api_batched`. -/
def batchedCalls (payload : JourneyPayload) (api : Nat → HttpOutcome)
    (max_journeys : Nat) : List Nat :=
  (runBatches api [] (List.range (numBatches payload max_journeys))).2

/-- Batch outcomes on which the loop aborts: a raised transport
exception, or a response whose status makes `raise_for_status` raise. -/
def fatalOutcome : HttpOutcome → Prop
  | HttpOutcome.exn => True
  | HttpOutcome.resp status _ => 400 ≤ status

/-- Models `run_pipeline` (`pipeline_runner.py`, lines 29-78) with
`test_mode = False`: Step 4 calls `call_ihc_api_batched`; when that
raises, the `try/except` catches the exception and returns `False`
before Step 5, so `save_attribution_results` is never reached.  The
result is the table passed to `save_attribution_results` in Step 5, or
`none` when the batched call aborted. -/
def run_pipeline_saved (payload : JourneyPayload) (api : Nat → HttpOutcome)
    (max_journeys : Nat) : Option AttribTable :=
  match call_ihc_api_batched payload api max_journeys with
  | Except.error _ => none
  | Except.ok t => some t

/- Concrete batched-path data for counterexamples and witnesses:
one user with one session and two conversions gives two distinct
conversion ids, hence two batches when `max_journeys = 1`. -/

def sB : Session := ⟨"sb", 1, "Other", false, false, false, 0⟩

def cB1 : Conversion := ⟨"cb1", 2, 1⟩

def cB2 : Conversion := ⟨"cb2", 3, 1⟩

def payloadB : JourneyPayload := ⟨[("ub", ⟨[sB], [cB1, cB2]⟩)]⟩

/-- A well-formed success body crediting session "sb" for "cb1". -/
def okBodyB : ApiBody := ⟨none, some [⟨"cb1", [⟨"sb", 1⟩]⟩]⟩

/-- An oracle whose first batch gets HTTP 500 and whose second batch
would succeed. -/
def apiHttp500 : Nat → HttpOutcome := fun i =>
  if i = 0 then HttpOutcome.resp 500 ⟨none, none⟩
  else HttpOutcome.resp 200 okBodyB

/-- An oracle whose first batch succeeds and whose second batch
returns a 200 response embedding `statusCode = 500`. -/
def apiAppError : Nat → HttpOutcome := fun i =>
  if i = 0 then HttpOutcome.resp 200 okBodyB
  else HttpOutcome.resp 200 ⟨some 500, none⟩

/-- An oracle whose second batch raises a transport error. -/
def apiTransportFail : Nat → HttpOutcome := fun i =>
  if i = 0 then HttpOutcome.resp 200 okBodyB else HttpOutcome.exn

/- ------------------------------------------------------------------ -/
/- Helper lemmas                                                      -/
/- ------------------------------------------------------------------ -/

theorem foldl_preserves {α β : Type} (P : α → Prop) (f : α → β → α) :
    ∀ (l : List β), (∀ a b, b ∈ l → P a → P (f a b)) → ∀ a, P a → P (l.foldl f a) := by
  intro l
  induction l with
  | nil => intro _ a ha; exact ha
  | cons b t ih =>
    intro h a ha
    exact ih (fun a' b' hb' => h a' b' (List.mem_cons_of_mem _ hb')) (f a b)
      (h a b (List.mem_cons_self _ _) ha)

theorem alGet_mem {α : Type} :
    ∀ (d : List (String × α)) (k : String) (v : α), alGet d k = some v → (k, v) ∈ d := by
  intro d
  induction d with
  | nil => intro k v h; simp [alGet] at h
  | cons p rest ih =>
    intro k v h
    obtain ⟨k', v'⟩ := p
    rw [alGet] at h
    split at h
    · next heq =>
      injection h with h2
      subst heq; subst h2
      exact List.mem_cons_self _ _
    · exact List.mem_cons_of_mem _ (ih k v h)

theorem dictInsert_ne_nil {α : Type} (d : List (String × α)) (k : String) (v : α) :
    dictInsert d k v ≠ [] := by
  cases d with
  | nil => simp [dictInsert]
  | cons p rest =>
    obtain ⟨k', v'⟩ := p
    rw [dictInsert]
    split <;> simp

theorem mem_dictInsert {α : Type} :
    ∀ (d : List (String × α)) (k : String) (v : α) (q : String × α),
      q ∈ dictInsert d k v → q = (k, v) ∨ q ∈ d := by
  intro d
  induction d with
  | nil => intro k v q h; simp [dictInsert] at h; exact Or.inl h
  | cons p rest ih =>
    intro k v q h
    obtain ⟨k', v'⟩ := p
    rw [dictInsert] at h
    split at h
    · rcases List.mem_cons.mp h with h1 | h2
      · exact Or.inl h1
      · exact Or.inr (List.mem_cons_of_mem _ h2)
    · rcases List.mem_cons.mp h with h1 | h2
      · exact Or.inr (by rw [h1]; exact List.mem_cons_self _ _)
      · rcases ih k v q h2 with h3 | h4
        · exact Or.inl h3
        · exact Or.inr (List.mem_cons_of_mem _ h4)

theorem channelWeight_pos (c : String) : 0 < channelWeight c := by
  unfold channelWeight
  split_ifs <;> norm_num

theorem engagementWeight_pos (s : Session) : 0 < engagementWeight s := by
  unfold engagementWeight
  split_ifs <;> norm_num

theorem rawWeight_pos (n i : Nat) (s : Session) (hn : 0 < n) : 0 < rawWeight n i s := by
  unfold rawWeight
  have h1 : (0 : ℚ) < (i : ℚ) + 1 := by positivity
  have h2 : (0 : ℚ) < (n : ℚ) := by exact_mod_cast hn
  exact mul_pos (mul_pos (div_pos h1 h2) (channelWeight_pos _)) (engagementWeight_pos _)

theorem foldl_dictInsert_ne_nil {β : Type} (key : β → String) (w : β → ℚ) :
    ∀ (l : List β) (inn : SessionWeights), (inn ≠ [] ∨ l ≠ []) →
      l.foldl (fun d p => dictInsert d (key p) (w p)) inn ≠ [] := by
  intro l
  induction l with
  | nil =>
    intro inn h
    rcases h with h | h
    · simpa using h
    · simp at h
  | cons b t ih =>
    intro inn _
    exact ih (dictInsert inn (key b) (w b)) (Or.inl (dictInsert_ne_nil _ _ _))

theorem assignRaw_ne_nil (inner : SessionWeights) (elig : List Session) (h : elig ≠ []) :
    assignRaw inner elig ≠ [] := by
  have henum : elig.enum ≠ [] := by
    intro hc
    apply h
    have hlen := congrArg List.length hc
    simpa [List.enum_length] using hlen
  exact foldl_dictInsert_ne_nil (fun p : Nat × Session => p.2.session_id)
    (fun p : Nat × Session => rawWeight elig.length p.1 p.2) elig.enum inner (Or.inr henum)

theorem assignRaw_pos (inner : SessionWeights) (elig : List Session)
    (hin : ∀ p ∈ inner, 0 < p.2) (hne : elig ≠ []) :
    ∀ q ∈ assignRaw inner elig, 0 < q.2 := by
  refine foldl_preserves (fun inn => ∀ q ∈ inn, 0 < q.2) _ elig.enum ?_ inner hin
  intro a b _ ha q hq
  rcases mem_dictInsert _ _ _ _ hq with h1 | h2
  · rw [h1]; exact rawWeight_pos _ _ _ (List.length_pos.mpr hne)
  · exact ha q h2

theorem innerTotal_pos (inner : SessionWeights) (hpos : ∀ p ∈ inner, 0 < p.2)
    (hne : inner ≠ []) : 0 < innerTotal inner := by
  unfold innerTotal
  apply List.sum_pos
  · intro x hx
    rcases List.mem_map.mp hx with ⟨p, hp, rfl⟩
    exact hpos p hp
  · simpa using hne

theorem sum_map_div (l : List (String × ℚ)) (t : ℚ) :
    ((l.map fun p => (p.1, p.2 / t)).map Prod.snd).sum = (l.map Prod.snd).sum / t := by
  induction l with
  | nil => simp
  | cons p rest ih =>
    simp only [List.map_cons, List.sum_cons, List.map_map] at ih ⊢
    rw [ih, add_div]

theorem innerTotal_normalizeWeights (inner : SessionWeights) (h : innerTotal inner ≠ 0) :
    innerTotal (normalizeWeights inner) = 1 := by
  show ((inner.map fun p => (p.1, p.2 / innerTotal inner)).map Prod.snd).sum = 1
  rw [sum_map_div]
  exact div_self h

theorem normalizeWeights_pos (inner : SessionWeights) (hpos : ∀ p ∈ inner, 0 < p.2)
    (ht : 0 < innerTotal inner) : ∀ q ∈ normalizeWeights inner, 0 < q.2 := by
  intro q hq
  rcases List.mem_map.mp hq with ⟨p, hp, rfl⟩
  exact div_pos (hpos p hp) ht

theorem innerOK_normalizeWeights (inner : SessionWeights) (hpos : ∀ p ∈ inner, 0 < p.2)
    (hne : inner ≠ []) : innerOK (normalizeWeights inner) := by
  have ht := innerTotal_pos inner hpos hne
  exact ⟨normalizeWeights_pos inner hpos ht,
    fun _ => innerTotal_normalizeWeights inner (ne_of_gt ht)⟩

theorem innerOK_nil : innerOK [] :=
  ⟨fun p hp => absurd hp (List.not_mem_nil p), fun h => absurd rfl h⟩

theorem tableOK_initKey (acc : AttribTable) (cid : String) (h : tableOK acc) :
    tableOK (initKey acc cid) := by
  unfold initKey
  split
  · intro q hq
    rcases List.mem_append.mp hq with h1 | h2
    · exact h q h1
    · simp at h2; rw [h2]; exact innerOK_nil
  · exact h

theorem tableOK_dictInsert (t : AttribTable) (k : String) (v : SessionWeights)
    (ht : tableOK t) (hv : innerOK v) : tableOK (dictInsert t k v) := by
  intro q hq
  rcases mem_dictInsert _ _ _ _ hq with h1 | h2
  · rw [h1]; exact hv
  · exact ht q h2

theorem innerOK_alGet (t : AttribTable) (k : String) (ht : tableOK t) :
    innerOK ((alGet t k).getD []) := by
  cases h : alGet t k with
  | none => exact innerOK_nil
  | some v => exact ht (k, v) (alGet_mem t k v h)

theorem tableOK_processConversion (acc : AttribTable) (ss : List Session)
    (conv : Conversion) (h : tableOK acc) : tableOK (processConversion acc ss conv) := by
  unfold processConversion
  have h1 : tableOK (initKey acc conv.conv_id) := tableOK_initKey acc conv.conv_id h
  cases he : (eligibleSessions ss conv).isEmpty with
  | true => simpa [he] using h1
  | false =>
    have hne : eligibleSessions ss conv ≠ [] := by
      intro hc; rw [hc] at he; simp at he
    have hpos0 := (innerOK_alGet (initKey acc conv.conv_id) conv.conv_id h1).1
    simp only [he, Bool.false_eq_true, if_false]
    exact tableOK_dictInsert _ _ _ h1
      (innerOK_normalizeWeights _ (assignRaw_pos _ _ hpos0 hne) (assignRaw_ne_nil _ _ hne))

theorem tableOK_call_ihc_api_test (payload : JourneyPayload) :
    tableOK (call_ihc_api_test payload) := by
  unfold call_ihc_api_test
  refine foldl_preserves tableOK _ payload.users ?_ [] ?_
  · intro acc u _ hacc
    cases hc : (u.2.sessions.isEmpty || u.2.conversions.isEmpty) with
    | true => simpa [hc] using hacc
    | false =>
      simp only [hc, Bool.false_eq_true, if_false]
      refine foldl_preserves tableOK _ u.2.conversions ?_ acc hacc
      intro a conv _ ha
      exact tableOK_processConversion a u.2.sessions conv ha
  · intro q hq
    exact absurd hq (List.not_mem_nil q)

theorem processConversion_no_elig (acc : AttribTable) (ss : List Session)
    (conv : Conversion) (helig : eligibleSessions ss conv = [])
    (hnew : alGet acc conv.conv_id = none) :
    processConversion acc ss conv = acc ++ [(conv.conv_id, [])] := by
  unfold processConversion
  rw [helig]
  simp [initKey, hnew]

/- ------------------------------------------------------------------ -/
/- Claim theorems                                                     -/
/- ------------------------------------------------------------------ -/

/-- C1: for every `conv_id` present in the attribution table returned
by `call_ihc_api_test`, the weights over its session ids sum to 1
whenever at least one weight is positive (exactly, hence within any
tolerance such as 1e-9). -/
theorem heuristic_weights_sum_one (payload : JourneyPayload) (cid : String)
    (inner : SessionWeights) (hmem : (cid, inner) ∈ call_ihc_api_test payload)
    (hpos : ∃ p ∈ inner, 0 < p.2) :
    (inner.map Prod.snd).sum = 1 := by
  have hOK := tableOK_call_ihc_api_test payload (cid, inner) hmem
  obtain ⟨p, hp, _⟩ := hpos
  exact hOK.2 (List.ne_nil_of_mem hp)

theorem heuristic_weights_sum_one_witness :
    (([("s1", (1 : ℚ))] : SessionWeights).map Prod.snd).sum = 1 :=
  heuristic_weights_sum_one payloadWit "c1" [("s1", 1)] (by with_unfolding_all decide)
    ⟨("s1", 1), by decide, by norm_num⟩

/-- C10: every raw weight is strictly positive, the normalization
divisor computed for a conversion with at least one eligible session is
strictly positive (so the division never divides by zero), and every
normalized weight in the output of `call_ihc_api_test` is strictly
positive. -/
theorem heuristic_weights_positive :
    (∀ (n i : Nat) (s : Session), 0 < n → 0 < rawWeight n i s) ∧
    (∀ (acc : AttribTable) (ss : List Session) (conv : Conversion),
      tableOK acc → eligibleSessions ss conv ≠ [] →
      0 < innerTotal (assignRaw
        ((alGet (initKey acc conv.conv_id) conv.conv_id).getD [])
        (eligibleSessions ss conv))) ∧
    (∀ (payload : JourneyPayload) (cid : String) (inner : SessionWeights)
      (sid : String) (w : ℚ),
      (cid, inner) ∈ call_ihc_api_test payload → (sid, w) ∈ inner → 0 < w) := by
  refine ⟨fun n i s hn => rawWeight_pos n i s hn, ?_, ?_⟩
  · intro acc ss conv hOK hne
    have h1 := tableOK_initKey acc conv.conv_id hOK
    have hpos0 := (innerOK_alGet (initKey acc conv.conv_id) conv.conv_id h1).1
    exact innerTotal_pos _ (assignRaw_pos _ _ hpos0 hne) (assignRaw_ne_nil _ _ hne)
  · intro payload cid inner sid w hmem hw
    exact ((tableOK_call_ihc_api_test payload) (cid, inner) hmem).1 (sid, w) hw

theorem heuristic_weights_positive_witness : 0 < rawWeight 1 0 sWit :=
  heuristic_weights_positive.1 1 0 sWit (by decide)

/-- C6 (counterexample): in `call_ihc_api_test`, a conversion with zero
eligible sessions does NOT vanish from the table: lines 99-100 create
the `conv_id` key before the eligibility filter runs, so the `conv_id`
appears as a key mapped to an empty session mapping. -/
theorem zero_eligible_key_present :
    call_ihc_api_test payloadNoElig = [("c9", [])] := by with_unfolding_all rfl

/-- C6 (amended): a conversion with zero eligible sessions after the
temporal filter is skipped by the scoring loop (it receives no session
weights), but its `conv_id` does appear in the returned table, mapped
to an empty session mapping. -/
theorem zero_eligible_empty_entry (uid : String) (ud : UserData) (conv : Conversion)
    (hs : ud.sessions ≠ []) (hc : ud.conversions = [conv])
    (helig : eligibleSessions ud.sessions conv = []) :
    call_ihc_api_test ⟨[(uid, ud)]⟩ = [(conv.conv_id, [])] := by
  have hsE : ud.sessions.isEmpty = false := by
    cases hl : ud.sessions with
    | nil => exact absurd hl hs
    | cons a t => rfl
  show (if ud.sessions.isEmpty || ud.conversions.isEmpty then ([] : AttribTable)
      else ud.conversions.foldl (fun a cv => processConversion a ud.sessions cv) []) = _
  rw [hsE, hc]
  show processConversion [] ud.sessions conv = _
  rw [processConversion_no_elig [] ud.sessions conv helig rfl]
  rfl

theorem zero_eligible_empty_entry_witness :
    call_ihc_api_test ⟨[("u9", ⟨[sLate], [cEarly]⟩)]⟩ = [(cEarly.conv_id, [])] :=
  zero_eligible_empty_entry "u9" ⟨[sLate], [cEarly]⟩ cEarly
    (by with_unfolding_all decide) rfl (by with_unfolding_all rfl)

theorem alGet_dictInsert {α : Type} :
    ∀ (d : List (String × α)) (k : String) (v : α) (key : String),
      alGet (dictInsert d k v) key = if k = key then some v else alGet d key := by
  intro d
  induction d with
  | nil => intro k v key; simp [dictInsert, alGet]
  | cons p rest ih =>
    intro k v key
    obtain ⟨k', v'⟩ := p
    by_cases h : k' = k
    · rw [dictInsert, if_pos h]
      simp only [alGet, h]
      by_cases hk : k = key
      · rw [if_pos hk, if_pos hk]
      · rw [if_neg hk, if_neg hk, if_neg hk]
    · rw [dictInsert, if_neg h]
      simp only [alGet]
      by_cases hk : k' = key
      · rw [if_pos hk, if_neg (fun hc => h (hk.trans hc.symm)), if_pos hk]
      · rw [if_neg hk, ih, if_neg hk]

theorem alGet_assign_notMem (n : Nat) (key : String) :
    ∀ (l : List Session) (m : Nat) (inner : SessionWeights),
      key ∉ l.map Session.session_id →
      alGet (List.foldl
          (fun inn p => dictInsert inn p.2.session_id (rawWeight n p.1 p.2))
          inner (l.enumFrom m)) key
        = alGet inner key := by
  intro l
  induction l with
  | nil => intro m inner _; rfl
  | cons a t ih =>
    intro m inner hkey
    have h1 : key ≠ a.session_id := by
      intro hc; exact hkey (by rw [hc]; exact List.mem_cons_self _ _)
    have h2 : key ∉ t.map Session.session_id := by
      intro hc; exact hkey (List.mem_cons_of_mem _ hc)
    show alGet (List.foldl _ (dictInsert inner a.session_id (rawWeight n m a))
      (t.enumFrom (m + 1))) key = _
    rw [ih (m + 1) _ h2, alGet_dictInsert, if_neg (fun hc => h1 hc.symm)]

theorem alGet_assign_get (n : Nat) :
    ∀ (l : List Session) (m : Nat) (inner : SessionWeights) (i : Nat) (hi : i < l.length),
      (l.map Session.session_id).Nodup →
      alGet (List.foldl
          (fun inn p => dictInsert inn p.2.session_id (rawWeight n p.1 p.2))
          inner (l.enumFrom m)) ((l.get ⟨i, hi⟩).session_id)
        = some (rawWeight n (m + i) (l.get ⟨i, hi⟩)) := by
  intro l
  induction l with
  | nil => intro m inner i hi; simp at hi
  | cons a t ih =>
    intro m inner i hi hnd
    obtain ⟨hnotin, hndt⟩ := List.nodup_cons.mp hnd
    cases i with
    | zero =>
      show alGet (List.foldl _ (dictInsert inner a.session_id (rawWeight n m a))
        (t.enumFrom (m + 1))) a.session_id = some (rawWeight n (m + 0) a)
      rw [alGet_assign_notMem n a.session_id t (m + 1) _ hnotin,
        alGet_dictInsert, if_pos rfl, Nat.add_zero]
    | succ j =>
      have hj : j < t.length := Nat.lt_of_succ_lt_succ hi
      show alGet (List.foldl _ (dictInsert inner a.session_id (rawWeight n m a))
        (t.enumFrom (m + 1))) ((t.get ⟨j, hj⟩).session_id)
          = some (rawWeight n (m + (j + 1)) (t.get ⟨j, hj⟩))
      rw [ih (m + 1) _ j hj hndt]
      have heq : m + 1 + j = m + (j + 1) := by omega
      rw [heq]

/-- C8: in `call_ihc_api_test`, the raw (pre-normalization) weight of
the i-th eligible session (0-based, in list order) among N eligible
sessions is `((i+1)/N) * channel_weight * engagement_weight`; the
channel weight is a first-match substring test (Email 1.2, then Social
1.1, Search 1.3, Direct 0.8, else 1.0), so "EmailSearch" receives only
the Email weight 1.2; the engagement weight is 1.0, plus 0.5 for holder
engagement, plus 0.7 for closer engagement, at most 2.2 (= 11/5). -/
theorem raw_weight_formula (elig : List Session) (i : Nat) (hi : i < elig.length)
    (hnd : (elig.map Session.session_id).Nodup) :
    (alGet (assignRaw [] elig) ((elig.get ⟨i, hi⟩).session_id)
        = some ((((i : ℚ) + 1) / (elig.length : ℚ))
            * channelWeight (elig.get ⟨i, hi⟩).channel
            * engagementWeight (elig.get ⟨i, hi⟩))) ∧
    channelWeight "EmailSearch" = 6/5 ∧
    channelWeight "SocialSearch" = 11/10 ∧
    channelWeight "SearchDirect" = 13/10 ∧
    channelWeight "Email" = 6/5 ∧ channelWeight "Social" = 11/10 ∧
    channelWeight "Search" = 13/10 ∧ channelWeight "Direct" = 4/5 ∧
    channelWeight "Organic" = 1 ∧
    (∀ s : Session,
      engagementWeight s
          = 1 + (if s.holder_engagement then 1/2 else 0)
            + (if s.closer_engagement then 7/10 else 0)
        ∧ engagementWeight s ≤ 11/5) := by
  refine ⟨?_, ?_, ?_, ?_, ?_, ?_, ?_, ?_, ?_, ?_⟩
  · have h := alGet_assign_get elig.length elig 0 [] i hi hnd
    rw [Nat.zero_add] at h
    exact h
  · with_unfolding_all rfl
  · with_unfolding_all rfl
  · with_unfolding_all rfl
  · with_unfolding_all rfl
  · with_unfolding_all rfl
  · with_unfolding_all rfl
  · with_unfolding_all rfl
  · with_unfolding_all rfl
  · intro s
    constructor
    · rfl
    · unfold engagementWeight
      split_ifs <;> norm_num

theorem raw_weight_formula_witness :
    alGet (assignRaw [] [sWitA, sWitB]) (([sWitA, sWitB].get ⟨1, by decide⟩).session_id)
      = some ((((1 : ℚ) + 1) / (([sWitA, sWitB] : List Session).length : ℚ))
          * channelWeight ([sWitA, sWitB].get ⟨1, by decide⟩).channel
          * engagementWeight ([sWitA, sWitB].get ⟨1, by decide⟩)) :=
  (raw_weight_formula [sWitA, sWitB] 1 (by decide) (by decide)).1

/-- C2: temporal eligibility is the same strict `<` rule in both
scoring paths: a session is creditable toward a conversion in the
heuristic engine (`eligibleSessions`, used by `call_ihc_api_test`) and
in the batched-path flattening (`flatForConv` / `flattenPayload`, used
by `call_ihc_api_batched`) exactly when its timestamp is strictly less
than the conversion's; a session whose timestamp equals the
conversion's is eligible in neither path. -/
theorem strict_eligibility_both_paths :
    (∀ (ss : List Session) (conv : Conversion) (s : Session),
      s ∈ eligibleSessions ss conv ↔ s ∈ ss ∧ s.timestamp < conv.timestamp) ∧
    (∀ (ss : List Session) (conv : Conversion) (s : Session), s ∈ ss →
      (sessionRecord conv s ∈ flatForConv ss conv ↔ s.timestamp < conv.timestamp)) ∧
    (∀ (payload : JourneyPayload) (r : FlatRecord),
      r ∈ flattenPayload payload → r.conversion = 0 →
      ∃ u ∈ payload.users, ∃ conv ∈ u.2.conversions, ∃ s ∈ u.2.sessions,
        r = sessionRecord conv s ∧ r.conversion_id = conv.conv_id ∧
        s.timestamp < conv.timestamp ∧ r.timestamp < conv.timestamp) := by
  refine ⟨?_, ?_, ?_⟩
  · intro ss conv s
    simp [eligibleSessions, List.mem_filter]
  · intro ss conv s hs
    constructor
    · intro hmem
      rcases List.mem_append.mp hmem with hmap | hconv
      · rcases List.mem_map.mp hmap with ⟨s', hs', heq⟩
        have hts : s'.timestamp = s.timestamp := congrArg FlatRecord.timestamp heq
        have hlt : s'.timestamp < conv.timestamp := by
          simpa using (List.mem_filter.mp hs').2
        omega
      · have hcc : sessionRecord conv s = convRecord conv := List.mem_singleton.mp hconv
        have h01 := congrArg FlatRecord.conversion hcc
        simp [sessionRecord, convRecord] at h01
    · intro hlt
      exact List.mem_append_left _
        (List.mem_map_of_mem _ (List.mem_filter.mpr ⟨hs, by simpa using hlt⟩))
  · intro payload r hr h0
    rcases List.mem_flatMap.mp hr with ⟨u, hu, hru⟩
    by_cases hskip : (u.2.sessions.isEmpty || u.2.conversions.isEmpty) = true
    · rw [if_pos hskip] at hru
      exact absurd hru (List.not_mem_nil r)
    · rw [if_neg hskip] at hru
      rcases List.mem_flatMap.mp hru with ⟨conv, hconv, hrc⟩
      rcases List.mem_append.mp hrc with hmap | hcrec
      · rcases List.mem_map.mp hmap with ⟨s, hsf, heq⟩
        have hsmem : s ∈ u.2.sessions := (List.mem_filter.mp hsf).1
        have hlt : s.timestamp < conv.timestamp := by
          simpa using (List.mem_filter.mp hsf).2
        refine ⟨u, hu, conv, hconv, s, hsmem, heq.symm, ?_, hlt, ?_⟩
        · rw [← heq]; rfl
        · rw [← heq]; exact hlt
      · have hc : r = convRecord conv := List.mem_singleton.mp hcrec
        rw [hc] at h0
        simp [convRecord] at h0

theorem strict_eligibility_both_paths_witness :
    sessionRecord cWit sWit ∈ flatForConv [sWit] cWit :=
  (strict_eligibility_both_paths.2.1 [sWit] cWit sWit
    (by with_unfolding_all decide)).mpr (by decide)

theorem userJourney_some_fst (sessions : List SessionRow) (convRows : List ConvRow)
    (u : String) (p : String × UserData)
    (h : userJourney sessions convRows u = some p) : p.1 = u := by
  unfold userJourney at h
  split at h
  · exact absurd h (by simp)
  · split at h
    · exact absurd h (by simp)
    · injection h with h2
      rw [← h2]

theorem userJourney_eq_some (sessions : List SessionRow) (convRows : List ConvRow)
    (uid : String) (ud : UserData) :
    userJourney sessions convRows uid = some (uid, ud) ↔
      (userSessionRows sessions uid ≠ [] ∧ userConvRows convRows uid ≠ [] ∧
       retainedConvs sessions convRows uid ≠ [] ∧
       ud = ⟨(userSessionRows sessions uid).map toSession,
         retainedConvs sessions convRows uid⟩) := by
  unfold userJourney
  rcases eq_or_ne (userSessionRows sessions uid) [] with hs | hs
  · simp [hs]
  · rcases eq_or_ne (userConvRows convRows uid) [] with hc | hc
    · simp [hc, hs]
    · rcases eq_or_ne (retainedConvs sessions convRows uid) [] with hr | hr
      · simp [hc, hs, hr]
      · simp only [List.isEmpty_eq_false.mpr hs, List.isEmpty_eq_false.mpr hc,
          List.isEmpty_eq_false.mpr hr, Bool.or_self, Bool.false_or, Bool.or_false,
          List.isEmpty_eq_false.mpr (fun h => hs (List.map_eq_nil.mp h)),
          Bool.false_eq_true, if_false, Option.some_inj, Prod.mk.injEq, true_and]
        constructor
        · intro h
          exact ⟨hs, hc, hr, h.symm⟩
        · intro h
          exact h.2.2.2.symm

theorem mem_build_customer_journeys (sessions : List SessionRow)
    (convRows : List ConvRow) (uid : String) (ud : UserData) :
    (uid, ud) ∈ build_customer_journeys sessions convRows ↔
      (uid ∈ sessions.map SessionRow.user_id ∧ uid ∈ convRows.map ConvRow.user_id ∧
       userJourney sessions convRows uid = some (uid, ud)) := by
  unfold build_customer_journeys
  rw [List.mem_filterMap]
  constructor
  · rintro ⟨u', hu', heq⟩
    have hfst : u' = uid := (userJourney_some_fst sessions convRows u' _ heq).symm
    subst hfst
    rw [List.mem_filter] at hu'
    refine ⟨List.mem_dedup.mp hu'.1, ?_, heq⟩
    simpa using hu'.2
  · rintro ⟨h1, h2, h3⟩
    refine ⟨uid, ?_, h3⟩
    rw [List.mem_filter]
    exact ⟨List.mem_dedup.mpr h1, by simpa using h2⟩

/-- C7: `build_customer_journeys` keeps exactly the users with both a
session row and a conversion row whose journey survives filtering: a
`(uid, ud)` entry is present iff `uid` appears in both inputs, `ud`
holds all of that user's sessions (converted unmodified) and exactly
the conversions preceded by at least one of the user's sessions, and
both lists are non-empty.  A conversion row of the user is retained iff
the user has a strictly earlier session row, and every journey in the
output has non-empty lists in which every conversion has a strictly
earlier session. -/
theorem journey_builder_spec (sessions : List SessionRow) (convRows : List ConvRow) :
    (∀ (uid : String) (ud : UserData),
      (uid, ud) ∈ build_customer_journeys sessions convRows ↔
        ((∃ r ∈ sessions, r.user_id = uid) ∧ (∃ r ∈ convRows, r.user_id = uid) ∧
         ud.sessions = (userSessionRows sessions uid).map toSession ∧
         ud.conversions = retainedConvs sessions convRows uid ∧
         ud.sessions ≠ [] ∧ ud.conversions ≠ [])) ∧
    (∀ (uid : String) (cr : ConvRow), cr ∈ convRows → cr.user_id = uid →
      (toConv cr ∈ retainedConvs sessions convRows uid ↔
        ∃ sr ∈ sessions, sr.user_id = uid ∧ sr.timestamp < cr.timestamp)) ∧
    (∀ p ∈ build_customer_journeys sessions convRows,
      p.2.sessions ≠ [] ∧ p.2.conversions ≠ [] ∧
      ∀ c ∈ p.2.conversions, ∃ s ∈ p.2.sessions, s.timestamp < c.timestamp) := by
  refine ⟨?_, ?_, ?_⟩
  · intro uid ud
    rw [mem_build_customer_journeys, userJourney_eq_some]
    constructor
    · rintro ⟨h1, h2, hs, hc, hr, hud⟩
      rcases List.mem_map.mp h1 with ⟨r, hr1, hr2⟩
      rcases List.mem_map.mp h2 with ⟨r', hr1', hr2'⟩
      subst hud
      exact ⟨⟨r, hr1, hr2⟩, ⟨r', hr1', hr2'⟩, rfl, rfl,
        fun h => hs (List.map_eq_nil.mp h), hr⟩
    · rintro ⟨⟨r, hr1, hr2⟩, ⟨r', hr1', hr2'⟩, hs, hc, hsne, hcne⟩
      have hrowsne : userSessionRows sessions uid ≠ [] := by
        intro hnil
        have hm : r ∈ userSessionRows sessions uid := by
          unfold userSessionRows
          exact List.mem_filter.mpr ⟨hr1, by simpa using hr2⟩
        rw [hnil] at hm
        exact absurd hm (List.not_mem_nil r)
      have hconvsne : userConvRows convRows uid ≠ [] := by
        intro hnil
        have hm : r' ∈ userConvRows convRows uid := by
          unfold userConvRows
          exact List.mem_filter.mpr ⟨hr1', by simpa using hr2'⟩
        rw [hnil] at hm
        exact absurd hm (List.not_mem_nil r')
      refine ⟨List.mem_map.mpr ⟨r, hr1, hr2⟩, List.mem_map.mpr ⟨r', hr1', hr2'⟩,
        hrowsne, hconvsne, ?_, ?_⟩
      · rw [← hc]; exact hcne
      · rw [← hs, ← hc]
  · intro uid cr hcr hcru
    constructor
    · intro hmemr
      unfold retainedConvs at hmemr
      rcases List.mem_map.mp hmemr with ⟨c', hc', heqc⟩
      have hts : c'.timestamp = cr.timestamp := congrArg Conversion.timestamp heqc
      have hne : (userSessionRows sessions uid).filter
          (fun s => s.timestamp < c'.timestamp) ≠ [] := by
        simpa using (List.mem_filter.mp hc').2
      rcases List.exists_mem_of_ne_nil _ hne with ⟨sr, hsr⟩
      rw [List.mem_filter] at hsr
      have hsru := List.mem_filter.mp (by
        have := hsr.1; unfold userSessionRows at this; exact this)
      have hlt : sr.timestamp < c'.timestamp := by simpa using hsr.2
      exact ⟨sr, hsru.1, by simpa using hsru.2, by omega⟩
    · rintro ⟨sr, hsr1, hsr2, hsr3⟩
      unfold retainedConvs
      apply List.mem_map_of_mem
      rw [List.mem_filter]
      constructor
      · unfold userConvRows
        exact List.mem_filter.mpr ⟨hcr, by simpa using hcru⟩
      · simp only [Bool.not_eq_true', List.isEmpty_eq_false]
        intro hnil
        have hm : sr ∈ (userSessionRows sessions uid).filter
            (fun s => s.timestamp < cr.timestamp) := by
          refine List.mem_filter.mpr ⟨?_, by simpa using hsr3⟩
          unfold userSessionRows
          exact List.mem_filter.mpr ⟨hsr1, by simpa using hsr2⟩
        rw [hnil] at hm
        exact absurd hm (List.not_mem_nil sr)
  · intro p hp
    obtain ⟨uid, ud⟩ := p
    rw [mem_build_customer_journeys, userJourney_eq_some] at hp
    obtain ⟨_, _, hrows, hconvs, hret, hud⟩ := hp
    subst hud
    refine ⟨fun h => hrows (List.map_eq_nil.mp h), hret, ?_⟩
    intro c hc
    unfold retainedConvs at hc
    rcases List.mem_map.mp hc with ⟨cr', hcr', heqc⟩
    have hne : (userSessionRows sessions uid).filter
        (fun s => s.timestamp < cr'.timestamp) ≠ [] := by
      simpa using (List.mem_filter.mp hcr').2
    rcases List.exists_mem_of_ne_nil _ hne with ⟨sr, hsr⟩
    rw [List.mem_filter] at hsr
    refine ⟨toSession sr, List.mem_map_of_mem _ hsr.1, ?_⟩
    have hlt : sr.timestamp < cr'.timestamp := by simpa using hsr.2
    have hts : c.timestamp = cr'.timestamp := by rw [← heqc]; rfl
    have hts2 : (toSession sr).timestamp = sr.timestamp := rfl
    omega

theorem journey_builder_spec_witness :
    ("u1", (⟨[toSession srWit], [toConv crWit]⟩ : UserData))
      ∈ build_customer_journeys [srWit] [crWit] :=
  ((journey_builder_spec [srWit] [crWit]).1 "u1"
    ⟨[toSession srWit], [toConv crWit]⟩).mpr (by with_unfolding_all decide)

theorem runBatches_fatal (api : Nat → HttpOutcome) :
    ∀ (l1 : List Nat) (j : Nat) (l2 : List Nat) (acc : AttribTable),
      (∀ i ∈ l1, ∃ s b, api i = HttpOutcome.resp s b ∧ s < 400) →
      fatalOutcome (api j) →
      runBatches api acc (l1 ++ j :: l2) = (Except.error (), l1 ++ [j]) := by
  intro l1
  induction l1 with
  | nil =>
    intro j l2 acc _ hfatal
    cases hj : api j with
    | exn => simp [runBatches, hj]
    | resp s b =>
      have hs : 400 ≤ s := by rw [hj] at hfatal; exact hfatal
      simp [runBatches, hj, hs]
  | cons a t ih =>
    intro j l2 acc hbenign hfatal
    obtain ⟨s, b, ha, hsb⟩ := hbenign a (List.mem_cons_self _ _)
    have h400 : ¬ 400 ≤ s := by omega
    rw [List.cons_append]
    simp only [runBatches, ha, h400, if_false]
    rw [ih j l2 (processBody acc b) (fun i hi => hbenign i (List.mem_cons_of_mem _ hi)) hfatal]
    simp

theorem batched_fatal_at (payload : JourneyPayload) (api : Nat → HttpOutcome)
    (k j : Nat) (hj : j < numBatches payload k)
    (hfatal : fatalOutcome (api j))
    (hbenign : ∀ i < j, ∃ s b, api i = HttpOutcome.resp s b ∧ s < 400) :
    call_ihc_api_batched payload api k = Except.error () ∧
    batchedCalls payload api k = List.range (j + 1) ∧
    run_pipeline_saved payload api k = none := by
  have hsplit : ∃ rest, List.range (numBatches payload k)
      = List.range j ++ j :: rest := by
    refine ⟨(List.range (numBatches payload k - j - 1)).map (fun x => j + (x + 1)), ?_⟩
    rw [show numBatches payload k = j + ((numBatches payload k - j - 1) + 1) by omega,
      List.range_add, List.range_succ_eq_map]
    simp [List.map_map, Function.comp]
  obtain ⟨rest, hsplit⟩ := hsplit
  have hrun : runBatches api [] (List.range (numBatches payload k))
      = (Except.error (), List.range j ++ [j]) := by
    rw [hsplit]
    exact runBatches_fatal api (List.range j) j rest []
      (fun i hi => hbenign i (List.mem_range.mp hi)) hfatal
  have h1 : call_ihc_api_batched payload api k = Except.error () := by
    unfold call_ihc_api_batched
    rw [hrun]
  refine ⟨h1, ?_, ?_⟩
  · unfold batchedCalls
    rw [hrun, ← List.range_succ]
  · unfold run_pipeline_saved
    rw [h1]

/-- C4: a transport-level failure (a raised `RequestException`:
connection error, timeout) on any batch call is fatal:
`call_ihc_api_batched` propagates the exception, no batch after the
failing one is called, and the pipeline run aborts before Step 5, so
`save_attribution_results` is never reached and nothing is persisted. -/
theorem transport_error_fatal (payload : JourneyPayload) (api : Nat → HttpOutcome)
    (k j : Nat) (hj : j < numBatches payload k)
    (hexn : api j = HttpOutcome.exn)
    (hbenign : ∀ i < j, ∃ s b, api i = HttpOutcome.resp s b ∧ s < 400) :
    call_ihc_api_batched payload api k = Except.error () ∧
    batchedCalls payload api k = List.range (j + 1) ∧
    run_pipeline_saved payload api k = none :=
  batched_fatal_at payload api k j hj (by rw [hexn]; trivial) hbenign

theorem transport_error_fatal_witness :
    call_ihc_api_batched payloadB apiTransportFail 1 = Except.error () ∧
    batchedCalls payloadB apiTransportFail 1 = List.range 2 ∧
    run_pipeline_saved payloadB apiTransportFail 1 = none :=
  transport_error_fatal payloadB apiTransportFail 1 1 (by decide) rfl
    (by
      intro i hi
      have h0 : i = 0 := by omega
      subst h0
      exact ⟨200, okBodyB, rfl, by omega⟩)

/-- C3 (counterexample): a batch request that returns HTTP 500 is NOT
skipped-and-continued: `raise_for_status` raises `HTTPError`, which the
`except requests.exceptions.RequestException` block re-raises, so the
run aborts instead of returning the other batches' results. -/
theorem http_error_not_skipped :
    call_ihc_api_batched payloadB apiHttp500 1 = Except.error () := by
  with_unfolding_all rfl

/-- C3 (amended): a non-success HTTP status on a batch request is
fatal, exactly like a transport failure: the `HTTPError` raised by
`raise_for_status` is re-raised by the `except` block, the function
aborts with the exception instead of returning the other batches'
results, no later batch is called, and nothing is persisted.  (Only an
application-level `statusCode` error inside a 2xx body is skipped and
non-fatal.) -/
theorem http_error_fatal (payload : JourneyPayload) (api : Nat → HttpOutcome)
    (k j s : Nat) (b : ApiBody) (hj : j < numBatches payload k)
    (hresp : api j = HttpOutcome.resp s b) (hs : 400 ≤ s)
    (hbenign : ∀ i < j, ∃ s' b', api i = HttpOutcome.resp s' b' ∧ s' < 400) :
    call_ihc_api_batched payload api k = Except.error () ∧
    batchedCalls payload api k = List.range (j + 1) ∧
    run_pipeline_saved payload api k = none :=
  batched_fatal_at payload api k j hj (by rw [hresp]; exact hs) hbenign

theorem http_error_fatal_witness :
    call_ihc_api_batched payloadB apiHttp500 1 = Except.error () ∧
    batchedCalls payloadB apiHttp500 1 = List.range 1 ∧
    run_pipeline_saved payloadB apiHttp500 1 = none :=
  http_error_fatal payloadB apiHttp500 1 0 500 ⟨none, none⟩ (by decide) rfl
    (by omega) (by intro i hi; omega)

/-- C5: an application-level error in a batch's 2xx JSON body (a
`statusCode` field different from 200) makes only that batch be
skipped: in a 2-batch run where batch 1 succeeds and batch 2 carries
such a `statusCode`, the function returns (no exception) an
attribution table built exclusively from batch 1's response, and the
affected conversions simply do not appear. -/
theorem app_error_batch_skipped (payload : JourneyPayload) (api : Nat → HttpOutcome)
    (k s0 s1 : Nat) (b0 b1 : ApiBody) (v0 : List ConvResult) (c : Nat)
    (hn : numBatches payload k = 2)
    (h0 : api 0 = HttpOutcome.resp s0 b0) (hs0 : s0 < 400)
    (ha0 : appErrorB b0 = false) (hv0 : b0.value = some v0)
    (h1 : api 1 = HttpOutcome.resp s1 b1) (hs1 : s1 < 400)
    (hsc : b1.statusCode = some c) (hc : c ≠ 200) :
    call_ihc_api_batched payload api k = Except.ok (v0.foldl mergeConv []) ∧
    run_pipeline_saved payload api k = some (v0.foldl mergeConv []) := by
  have hrange : List.range (numBatches payload k) = [0, 1] := by rw [hn]; rfl
  have happ1 : appErrorB b1 = true := by
    unfold appErrorB
    rw [hsc]
    simpa using hc
  have h4000 : ¬ 400 ≤ s0 := by omega
  have h4001 : ¬ 400 ≤ s1 := by omega
  have hp0 : processBody [] b0 = v0.foldl mergeConv [] := by
    simp [processBody, ha0, hv0]
  have hp1 : ∀ acc, processBody acc b1 = acc := fun acc => by
    simp [processBody, happ1]
  have hrun : runBatches api [] [0, 1]
      = (Except.ok (v0.foldl mergeConv []), [0, 1]) := by
    simp [runBatches, h0, h1, h4000, h4001, hp0, hp1]
  have hcall : call_ihc_api_batched payload api k
      = Except.ok (v0.foldl mergeConv []) := by
    unfold call_ihc_api_batched
    rw [hrange, hrun]
  refine ⟨hcall, ?_⟩
  unfold run_pipeline_saved
  rw [hcall]

theorem app_error_batch_skipped_witness :
    call_ihc_api_batched payloadB apiAppError 1
        = Except.ok ([(⟨"cb1", [⟨"sb", 1⟩]⟩ : ConvResult)].foldl mergeConv []) ∧
    run_pipeline_saved payloadB apiAppError 1
        = some ([(⟨"cb1", [⟨"sb", 1⟩]⟩ : ConvResult)].foldl mergeConv []) :=
  app_error_batch_skipped payloadB apiAppError 1 200 200 okBodyB ⟨some 500, none⟩
    [⟨"cb1", [⟨"sb", 1⟩]⟩] 500 (by decide) rfl (by omega) rfl rfl rfl (by omega)
    rfl (by omega)

theorem chunks_nil {α : Type} (k : Nat) : chunks k ([] : List α) = [] := by
  unfold chunks batchStarts
  have h : (([] : List α).length + k - 1) / k = 0 := by
    rcases Nat.eq_zero_or_pos k with rfl | hk
    · simp
    · simp only [List.length_nil]
      exact Nat.div_eq_of_lt (by omega)
  rw [h]
  rfl

theorem chunks_cons {α : Type} (k : Nat) (l : List α) (hk : 0 < k) (hl : l ≠ []) :
    chunks k l = l.take k :: chunks k (l.drop k) := by
  have hlen : 0 < l.length := List.length_pos.mpr hl
  have hm : (l.length + k - 1) / k = ((l.drop k).length + k - 1) / k + 1 := by
    rw [List.length_drop]
    rcases le_or_lt l.length k with hle | hlt
    · have h2 : l.length - k = 0 := by omega
      have h3 : l.length + k - 1 = (l.length - 1) + k := by omega
      rw [h2, h3, Nat.add_div_right _ hk, Nat.div_eq_of_lt (by omega),
        Nat.div_eq_of_lt (by omega)]
    · have h3 : l.length + k - 1 = ((l.length - k) + k - 1) + k := by omega
      rw [h3, Nat.add_div_right _ hk]
  unfold chunks batchStarts
  rw [hm, List.range_succ_eq_map]
  simp only [List.map_cons, List.map_map, Nat.zero_mul, List.drop_zero]
  congr 1
  refine List.map_congr_left ?_
  intro j _
  simp only [Function.comp_apply]
  rw [List.drop_drop]
  congr 2
  rw [Nat.succ_mul]
  omega

theorem chunks_flatten {α : Type} (k : Nat) (hk : 0 < k) :
    ∀ (l : List α), (chunks k l).flatten = l
  | l => by
    rcases eq_or_ne l [] with rfl | hl
    · rw [chunks_nil]
      rfl
    · rw [chunks_cons k l hk hl, List.flatten_cons,
        chunks_flatten k hk (l.drop k), List.take_append_drop]
  termination_by l => l.length
  decreasing_by
    have h0 : 0 < l.length := List.length_pos.mpr hl
    show (l.drop k).length < l.length
    rw [List.length_drop]
    omega

theorem chunks_mem_size {α : Type} (k : Nat) (hk : 0 < k) :
    ∀ (l : List α), ∀ b ∈ chunks k l, b ≠ [] ∧ b.length ≤ k
  | l => by
    rcases eq_or_ne l [] with rfl | hl
    · rw [chunks_nil]
      intro b hb
      exact absurd hb (List.not_mem_nil b)
    · rw [chunks_cons k l hk hl]
      intro b hb
      rcases List.mem_cons.mp hb with rfl | hb2
      · constructor
        · apply List.length_pos.mp
          rw [List.length_take]
          exact lt_min hk (List.length_pos.mpr hl)
        · rw [List.length_take]
          exact min_le_left _ _
      · exact chunks_mem_size k hk (l.drop k) b hb2
  termination_by l => l.length
  decreasing_by
    have h0 : 0 < l.length := List.length_pos.mpr hl
    show (l.drop k).length < l.length
    rw [List.length_drop]
    omega

theorem chunks_subset {α : Type} (k : Nat) (hk : 0 < k) :
    ∀ (l : List α), ∀ b ∈ chunks k l, ∀ x ∈ b, x ∈ l
  | l => by
    rcases eq_or_ne l [] with rfl | hl
    · rw [chunks_nil]
      intro b hb
      exact absurd hb (List.not_mem_nil b)
    · rw [chunks_cons k l hk hl]
      intro b hb x hx
      rcases List.mem_cons.mp hb with rfl | hb2
      · exact List.take_subset k l hx
      · exact List.drop_subset k l (chunks_subset k hk (l.drop k) b hb2 x hx)
  termination_by l => l.length
  decreasing_by
    have h0 : 0 < l.length := List.length_pos.mpr hl
    show (l.drop k).length < l.length
    rw [List.length_drop]
    omega

theorem chunks_countP_one {α : Type} [DecidableEq α] (k : Nat) (hk : 0 < k) :
    ∀ (l : List α), l.Nodup → ∀ a ∈ l,
      (chunks k l).countP (fun b => decide (a ∈ b)) = 1
  | l => by
    intro hnd a ha
    replace hnd : l.Nodup := hnd
    replace ha : a ∈ l := ha
    have hl : l ≠ [] := List.ne_nil_of_mem ha
    rw [chunks_cons k l hk hl, List.countP_cons]
    by_cases hmem : a ∈ l.take k
    · have hnotdrop : a ∉ l.drop k := fun hc =>
        (List.disjoint_take_drop hnd (le_refl k)) hmem hc
      have hzero : (chunks k (l.drop k)).countP (fun b => decide (a ∈ b)) = 0 := by
        rw [List.countP_eq_zero]
        intro b hb
        simp only [decide_eq_true_eq]
        intro hab
        exact hnotdrop (chunks_subset k hk (l.drop k) b hb a hab)
      rw [hzero]
      simp [hmem]
    · have hdrop : a ∈ l.drop k := by
        have h2 := List.take_append_drop k l
        rw [← h2] at ha
        rcases List.mem_append.mp ha with h3 | h3
        · exact absurd h3 hmem
        · exact h3
      rw [chunks_countP_one k hk (l.drop k)
        ((List.drop_sublist k l).nodup hnd) a hdrop]
      simp [hmem]
  termination_by l => l.length
  decreasing_by
    have h0 : 0 < l.length := List.length_pos.mpr (List.ne_nil_of_mem ha)
    show (l.drop k).length < l.length
    rw [List.length_drop]
    omega

theorem dictPush_alGet {α : Type} :
    ∀ (d : List (String × List α)) (key : String) (v : α) (cid : String),
      alGet (dictPush d key v) cid
        = if key = cid then some (((alGet d key).getD []) ++ [v])
          else alGet d cid := by
  intro d
  induction d with
  | nil =>
    intro key v cid
    by_cases h : key = cid <;> simp [dictPush, alGet, h]
  | cons p rest ih =>
    intro key v cid
    obtain ⟨k', l'⟩ := p
    by_cases h : k' = key
    · subst h
      rw [dictPush, if_pos rfl]
      simp only [alGet, if_pos rfl]
      by_cases hc : k' = cid
      · rw [if_pos hc, if_pos hc]
        simp
      · rw [if_neg hc, if_neg hc, if_neg hc]
    · rw [dictPush, if_neg h]
      simp only [alGet]
      rw [if_neg h, ih]
      by_cases hc : k' = cid
      · have hkey : ¬ key = cid := fun hcc => h (hc.trans hcc.symm)
        rw [if_pos hc, if_neg hkey, if_pos hc]
      · rw [if_neg hc, if_neg hc]

theorem foldl_dictPush_alGet :
    ∀ (flat : List FlatRecord) (d : List (String × List FlatRecord)) (cid : String),
      alGet (flat.foldl (fun d j => dictPush d j.conversion_id j) d) cid
        = if (alGet d cid).isNone
              ∧ flat.filter (fun j => j.conversion_id = cid) = []
          then none
          else some ((alGet d cid).getD []
            ++ flat.filter (fun j => j.conversion_id = cid)) := by
  intro flat
  induction flat with
  | nil =>
    intro d cid
    simp only [List.foldl_nil, List.filter_nil]
    cases h : alGet d cid with
    | none => simp
    | some l => simp
  | cons j rest ih =>
    intro d cid
    simp only [List.foldl_cons, List.filter_cons]
    rw [ih, dictPush_alGet]
    by_cases hj : j.conversion_id = cid
    · simp [hj]
    · simp [hj]

theorem journeysByConversion_alGet (flat : List FlatRecord) (cid : String) :
    alGet (journeysByConversion flat) cid
      = if flat.filter (fun j => j.conversion_id = cid) = [] then none
        else some (flat.filter (fun j => j.conversion_id = cid)) := by
  unfold journeysByConversion
  rw [foldl_dictPush_alGet]
  simp [alGet]

theorem dictPush_keys_cases {α : Type} :
    ∀ (d : List (String × List α)) (key : String) (v : α),
      (dictPush d key v).map Prod.fst = d.map Prod.fst ∨
      ((dictPush d key v).map Prod.fst = d.map Prod.fst ++ [key]
        ∧ key ∉ d.map Prod.fst) := by
  intro d
  induction d with
  | nil =>
    intro key v
    right
    simp [dictPush]
  | cons p rest ih =>
    intro key v
    obtain ⟨k', l'⟩ := p
    by_cases h : k' = key
    · left
      rw [dictPush, if_pos h]
      simp
    · rw [dictPush, if_neg h]
      rcases ih key v with h1 | ⟨h1, h2⟩
      · left
        simp [List.map_cons, h1]
      · right
        constructor
        · simp [List.map_cons, h1]
        · simp only [List.map_cons, List.mem_cons]
          rintro (hc | hc)
          · exact h hc.symm
          · exact h2 hc

theorem nodup_keys_dictPush {α : Type} (d : List (String × List α)) (key : String)
    (v : α) (hnd : (d.map Prod.fst).Nodup) :
    ((dictPush d key v).map Prod.fst).Nodup := by
  rcases dictPush_keys_cases d key v with h | ⟨h, h2⟩
  · rw [h]
    exact hnd
  · rw [h, List.nodup_append]
    refine ⟨hnd, List.nodup_singleton key, ?_⟩
    intro x hx hxs
    rw [List.mem_singleton.mp hxs] at hx
    exact h2 hx

theorem conversionIds_nodup (flat : List FlatRecord) : (conversionIds flat).Nodup := by
  unfold conversionIds journeysByConversion
  exact foldl_preserves (fun d => (d.map Prod.fst).Nodup)
    (fun d j => dictPush d j.conversion_id j) flat
    (fun d j _ hd => nodup_keys_dictPush d j.conversion_id j hd) [] (by simp)

theorem alGet_isSome_of_mem_keys {α : Type} :
    ∀ (d : List (String × α)) (cid : String),
      cid ∈ d.map Prod.fst → (alGet d cid).isSome := by
  intro d
  induction d with
  | nil => intro cid h; simp at h
  | cons p rest ih =>
    intro cid h
    obtain ⟨k', v'⟩ := p
    by_cases hk : k' = cid
    · simp [alGet, hk]
    · simp only [List.map_cons, List.mem_cons] at h
      rcases h with h | h
      · exact absurd h.symm hk
      · simp only [alGet]
        rw [if_neg hk]
        exact ih cid h

theorem chunks_len_250 {α : Type} (l : List α) (h : l.length = 250) :
    (chunks 100 l).map List.length = [100, 100, 50] := by
  unfold chunks batchStarts
  rw [h]
  have h3 : (250 + 100 - 1) / 100 = 3 := by norm_num
  rw [h3, show List.range 3 = [0, 1, 2] from rfl]
  simp [List.length_take, List.length_drop, h]

/-- C9: the batch orchestrator partitions the distinct conversion ids,
in flattening encounter order, into consecutive slices of at most `k`
conversions: the slices concatenate back to the id list, every slice
is non-empty with at most `k` ids, every conversion id occurs in
exactly one slice, 250 conversions with batch size 100 give exactly 3
slices of sizes 100, 100, 50, the grouping maps every conversion id to
all of its flattened records, and each batch's record list contains
every flattened record of every conversion id of the batch — so one
conversion's records are never split across two batches. -/
theorem batch_partition (flat : List FlatRecord) (k : Nat) (hk : 0 < k) :
    ((chunks k (conversionIds flat)).flatten = conversionIds flat) ∧
    (∀ b ∈ chunks k (conversionIds flat), b ≠ [] ∧ b.length ≤ k) ∧
    (∀ cid ∈ conversionIds flat,
      (chunks k (conversionIds flat)).countP (fun b => decide (cid ∈ b)) = 1) ∧
    ((conversionIds flat).length = 250 →
      (chunks 100 (conversionIds flat)).map List.length = [100, 100, 50] ∧
      (chunks 100 (conversionIds flat)).length = 3) ∧
    (∀ cid : String,
      alGet (journeysByConversion flat) cid
        = if flat.filter (fun j => j.conversion_id = cid) = [] then none
          else some (flat.filter (fun j => j.conversion_id = cid))) ∧
    (∀ b ∈ chunks k (conversionIds flat), ∀ cid ∈ b, ∀ r ∈ flat,
      r.conversion_id = cid →
      r ∈ batchJourneys (journeysByConversion flat) b) := by
  refine ⟨chunks_flatten k hk _, chunks_mem_size k hk _, ?_, ?_,
    journeysByConversion_alGet flat, ?_⟩
  · intro cid hcid
    exact chunks_countP_one k hk _ (conversionIds_nodup flat) cid hcid
  · intro h250
    refine ⟨chunks_len_250 _ h250, ?_⟩
    have hlen := congrArg List.length (chunks_len_250 (conversionIds flat) h250)
    simpa using hlen
  · intro b hb cid hcid r hr hrc
    have hrf : r ∈ flat.filter (fun j => j.conversion_id = cid) :=
      List.mem_filter.mpr ⟨hr, by simpa using hrc⟩
    have hne : flat.filter (fun j => j.conversion_id = cid) ≠ [] :=
      List.ne_nil_of_mem hrf
    unfold batchJourneys
    refine List.mem_flatMap.mpr ⟨cid, hcid, ?_⟩
    rw [journeysByConversion_alGet flat cid, if_neg hne]
    exact hrf

theorem batch_partition_witness :
    (chunks 1 (conversionIds (flattenPayload payloadB))).flatten
      = conversionIds (flattenPayload payloadB) :=
  (batch_partition (flattenPayload payloadB) 1 (by decide)).1
